import Mathlib

/-!
Verification of the client-side crypto and chat-state logic of the
secure instant-messaging system (app/utils/crypto.client.ts,
app/routes/chat.tsx), as a shallow embedding.

Bytes are modelled as `Nat` (with `< 256` bounds stated where they
matter); JS strings are Lean `String`s; `ArrayBuffer`/`Uint8Array`
contents are `List Nat`.
-/

namespace SecureComm

/-! ## Base64 (window.btoa / window.atob)

`arrayBufferToBase64` in crypto.client.ts builds a binary string from the
bytes and calls `window.btoa`; `base64ToArrayBuffer` calls `window.atob`
and reads the char codes back.  We model the composition directly on byte
lists: `b64Encode` is btoa-of-the-binary-string, `atob` is the WHATWG
forgiving-base64 decoder returning the byte list. -/

def b64Alphabet : List Char :=
  ['A','B','C','D','E','F','G','H','I','J','K','L','M',
   'N','O','P','Q','R','S','T','U','V','W','X','Y','Z',
   'a','b','c','d','e','f','g','h','i','j','k','l','m',
   'n','o','p','q','r','s','t','u','v','w','x','y','z',
   '0','1','2','3','4','5','6','7','8','9','+','/']

def b64Char (v : Nat) : Char := b64Alphabet.getD v 'A'

def b64Val (c : Char) : Option Nat := b64Alphabet.findIdx? (· = c)

/-- The 6-bit groups of the base64 encoding of a byte list (no padding). -/
def encVals : List Nat → List Nat
  | [] => []
  | [b1] => [b1 / 4, b1 % 4 * 16]
  | [b1, b2] => [b1 / 4, b1 % 4 * 16 + b2 / 16, b2 % 16 * 4]
  | b1 :: b2 :: b3 :: rest =>
      (b1 / 4) :: (b1 % 4 * 16 + b2 / 16) :: (b2 % 16 * 4 + b3 / 64) :: (b3 % 64) ::
        encVals rest

/-- Reassemble bytes from 6-bit groups (forgiving-base64 tail handling:
a leftover group of 2 yields one byte, of 3 yields two bytes). -/
def decodeVals : List Nat → List Nat
  | v1 :: v2 :: v3 :: v4 :: rest =>
      (v1 * 4 + v2 / 16) :: (v2 % 16 * 16 + v3 / 4) :: (v3 % 4 * 64 + v4) ::
        decodeVals rest
  | [v1, v2] => [v1 * 4 + v2 / 16]
  | [v1, v2, v3] => [v1 * 4 + v2 / 16, v2 % 16 * 16 + v3 / 4]
  | _ => []

def b64PadChars (bs : List Nat) : List Char :=
  match bs.length % 3 with
  | 0 => []
  | 1 => ['=', '=']
  | _ => ['=']

/-- `window.btoa` applied to the binary string of a byte list
(standard base64 with '=' padding). -/
def b64Encode (bs : List Nat) : String :=
  String.mk ((encVals bs).map b64Char ++ b64PadChars bs)

/-- HTML "ASCII whitespace" (removed by forgiving-base64 decode). -/
def asciiWs (c : Char) : Bool :=
  c.toNat = 9 || c.toNat = 10 || c.toNat = 12 || c.toNat = 13 || c.toNat = 32

/-- Forgiving-base64: when the length is a multiple of 4, strip one or two
trailing '=' characters. -/
def stripPadding (cs : List Char) : List Char :=
  if cs.length % 4 = 0 then
    match cs.reverse with
    | c1 :: c2 :: r =>
        if c1 = '=' ∧ c2 = '=' then r.reverse
        else if c1 = '=' then (c2 :: r).reverse
        else cs
    | [c1] => if c1 = '=' then [] else cs
    | [] => cs
  else cs

def b64Vals : List Char → Option (List Nat)
  | [] => some []
  | c :: cs =>
    match b64Val c, b64Vals cs with
    | some v, some vs => some (v :: vs)
    | _, _ => none

/-- `window.atob` (WHATWG forgiving-base64 decode), returning the byte
list of the resulting binary string. -/
def atob (s : String) : Option (List Nat) :=
  if (stripPadding (s.toList.filter (fun c => !asciiWs c))).length % 4 = 1 then none
  else
    match b64Vals (stripPadding (s.toList.filter (fun c => !asciiWs c))) with
    | none => none
    | some vals => some (decodeVals vals)

/-! ## UTF-8 (TextEncoder / TextDecoder)

`encryptMessage` encodes the plaintext with `TextEncoder` and
`decryptMessage` decodes the decrypted bytes with `TextDecoder` (default
non-fatal mode, invalid sequences become U+FFFD). -/

def utf8EncodeChar (c : Char) : List Nat :=
  if c.toNat < 0x80 then [c.toNat]
  else if c.toNat < 0x800 then [0xC0 + c.toNat / 64, 0x80 + c.toNat % 64]
  else if c.toNat < 0x10000 then
    [0xE0 + c.toNat / 4096, 0x80 + c.toNat / 64 % 64, 0x80 + c.toNat % 64]
  else
    [0xF0 + c.toNat / 262144, 0x80 + c.toNat / 4096 % 64,
     0x80 + c.toNat / 64 % 64, 0x80 + c.toNat % 64]

def utf8EncodeList : List Char → List Nat
  | [] => []
  | c :: cs => utf8EncodeChar c ++ utf8EncodeList cs

/-- `new TextEncoder().encode(text)` as a byte list. -/
def utf8Encode (s : String) : List Nat := utf8EncodeList s.toList

/-- The U+FFFD replacement character emitted by a non-fatal TextDecoder. -/
def fffd : Char := Char.ofNat 0xFFFD

/-- WHATWG UTF-8 decoder (non-fatal mode): maximal-subpart errors are
replaced by U+FFFD and decoding continues. -/
def utf8DecodeList : List Nat → List Char
  | [] => []
  | b :: rest =>
    if b ≤ 0x7F then Char.ofNat b :: utf8DecodeList rest
    else if b ≤ 0xC1 then fffd :: utf8DecodeList rest
    else if b ≤ 0xDF then
      match rest with
      | [] => [fffd]
      | b2 :: rest2 =>
        if 0x80 ≤ b2 ∧ b2 ≤ 0xBF then
          Char.ofNat ((b - 0xC0) * 64 + (b2 - 0x80)) :: utf8DecodeList rest2
        else fffd :: utf8DecodeList (b2 :: rest2)
    else if b ≤ 0xEF then
      match rest with
      | [] => [fffd]
      | b2 :: rest2 =>
        if (if b = 0xE0 then 0xA0 else 0x80) ≤ b2 ∧ b2 ≤ (if b = 0xED then 0x9F else 0xBF) then
          match rest2 with
          | [] => [fffd]
          | b3 :: rest3 =>
            if 0x80 ≤ b3 ∧ b3 ≤ 0xBF then
              Char.ofNat ((b - 0xE0) * 4096 + (b2 - 0x80) * 64 + (b3 - 0x80)) ::
                utf8DecodeList rest3
            else fffd :: utf8DecodeList (b3 :: rest3)
        else fffd :: utf8DecodeList (b2 :: rest2)
    else if b ≤ 0xF4 then
      match rest with
      | [] => [fffd]
      | b2 :: rest2 =>
        if (if b = 0xF0 then 0x90 else 0x80) ≤ b2 ∧ b2 ≤ (if b = 0xF4 then 0x8F else 0xBF) then
          match rest2 with
          | [] => [fffd]
          | b3 :: rest3 =>
            if 0x80 ≤ b3 ∧ b3 ≤ 0xBF then
              match rest3 with
              | [] => [fffd]
              | b4 :: rest4 =>
                if 0x80 ≤ b4 ∧ b4 ≤ 0xBF then
                  Char.ofNat ((b - 0xF0) * 262144 + (b2 - 0x80) * 4096 +
                      (b3 - 0x80) * 64 + (b4 - 0x80)) :: utf8DecodeList rest4
                else fffd :: utf8DecodeList (b4 :: rest4)
            else fffd :: utf8DecodeList (b3 :: rest3)
        else fffd :: utf8DecodeList (b2 :: rest2)
    else fffd :: utf8DecodeList rest

/-- `new TextDecoder().decode(bytes)`. -/
def utf8Decode (bs : List Nat) : String := String.mk (utf8DecodeList bs)

/-! ## Failure modes of the client crypto functions (spec §7 taxonomy) -/

inductive CryptoError where
  | invalidKeyFormat
  | plaintextTooLarge
  | decryptionError
deriving DecidableEq

/-! ## PEM export / import (exportPublicKeyAsPem, importRsaPublicKey) -/

/-- The character class of the JavaScript regular expression `\s`. -/
def jsWs (c : Char) : Bool :=
  (9 ≤ c.toNat && c.toNat ≤ 13) || c.toNat = 32 || c.toNat = 160 ||
  c.toNat = 0x1680 || (0x2000 ≤ c.toNat && c.toNat ≤ 0x200A) ||
  c.toNat = 0x2028 || c.toNat = 0x2029 || c.toNat = 0x202F ||
  c.toNat = 0x205F || c.toNat = 0x3000 || c.toNat = 0xFEFF

/-- JS `String.replace` with a string pattern and empty replacement:
removes the first occurrence of `pat` (no-op when `pat` is absent). -/
def replaceFirst : List Char → List Char → List Char
  | [], _ => []
  | c :: rest, pat =>
    if pat.isPrefixOf (c :: rest) then (c :: rest).drop pat.length
    else c :: replaceFirst rest pat

def pemHeader : String := "-----BEGIN PUBLIC KEY-----"

def pemFooter : String := "-----END PUBLIC KEY-----"

/-- `exportPublicKeyAsPem`: wrap the base64 of the SPKI DER bytes in PEM
delimiters (crypto.client.ts lines 35-40). -/
def exportPublicKeyAsPem (der : List Nat) : String :=
  pemHeader ++ "\n" ++ b64Encode der ++ "\n" ++ pemFooter

/-- The `pemContents` computation of `importRsaPublicKey`: strip the first
occurrence of each delimiter, then remove every `\s` character. -/
def pemContents (pemKey : String) : String :=
  String.mk ((replaceFirst (replaceFirst pemKey.toList pemHeader.toList)
    pemFooter.toList).filter (fun c => !jsWs c))

/-- `importRsaPublicKey` (crypto.client.ts lines 45-64).  The platform's
SPKI DER decoding inside `crypto.subtle.importKey` is not part of the
repository; it is abstracted as the validity predicate `derOk`
(spec §9 directs abstracting the crypto engine as a capability
interface).  A successfully imported key is represented by its DER
bytes.  Every failure path throws, modelled as `invalidKeyFormat`. -/
def importRsaPublicKey (derOk : List Nat → Bool) (pemKey : String) :
    Except CryptoError (List Nat) :=
  if pemKey = "" then .error .invalidKeyFormat
  else
    match atob (pemContents pemKey) with
    | none => .error .invalidKeyFormat
    | some der => if derOk der then .ok der else .error .invalidKeyFormat

/-- Does the string contain `pat` as a contiguous substring? -/
def containsList (s pat : List Char) : Bool :=
  (List.range (s.length + 1)).any (fun i => pat.isPrefixOf (s.drop i))

/-- Both PEM delimiters occur in the string. -/
def hasPemDelimiters (s : String) : Bool :=
  containsList s.toList pemHeader.toList && containsList s.toList pemFooter.toList

/-! ## The platform crypto engine

`window.crypto.subtle` is not part of the repository.  Modelled from the
spec: §4.1 fixes RSA-OAEP with a 2048-bit modulus and SHA-256 (OAEP
bound 256 − 2·32 − 2 = 190 bytes), §4.2 fixes AES-256-GCM with a 12-byte
IV and a 16-byte authentication tag, and §9 directs abstracting the
engine as a `CryptoProvider` capability interface exposing exactly those
operations.  Public keys are represented by their SPKI DER bytes, the
stored private key by its JWK string; RSA-OAEP is randomized, so
`rsaEnc` takes the random seed explicitly. -/

structure Platform where
  /-- Does `crypto.subtle.importKey("spki", ...)` accept these DER bytes? -/
  derOk : List Nat → Bool
  /-- `crypto.subtle.encrypt({name: "RSA-OAEP"}, importKey(der), msg)`;
  `none` models the rejection (too-large plaintext, per the OAEP bound). -/
  rsaEnc : List Nat → List Nat → List Nat → Option (List Nat)
  /-- Does `JSON.parse` + `crypto.subtle.importKey("jwk", ...)` succeed? -/
  jwkOk : String → Bool
  /-- `crypto.subtle.decrypt({name: "RSA-OAEP"}, importKey(jwk), ct)`;
  `none` models the padding/integrity failure (OperationError). -/
  rsaDec : String → List Nat → Option (List Nat)
  /-- The AES block cipher `E_K` used by AES-GCM (key, 16-byte block). -/
  aesBlock : List Nat → List Nat → List Nat
  /-- The AES-GCM authentication tag over (key, iv, ciphertext). -/
  gcmTag : List Nat → List Nat → List Nat → List Nat

/-- A keypair as produced by `crypto.subtle.generateKey` for RSA-OAEP
2048/SHA-256 and exported by `generateAndStoreKeys`: the SPKI DER bytes
of the public key and the JWK string of the private key.  Modelled from
the spec: §4.1 — encryption fails exactly above the 190-byte OAEP bound,
and decryption with the matching private key inverts encryption. -/
def Platform.Keypair (pf : Platform) (der : List Nat) (jwk : String) : Prop :=
  (∀ b ∈ der, b < 256) ∧ pf.derOk der = true ∧ pf.jwkOk jwk = true ∧
  (∀ seed msg, 190 < msg.length → pf.rsaEnc der seed msg = none) ∧
  (∀ seed msg, msg.length ≤ 190 → (∀ b ∈ msg, b < 256) →
     ∃ ct, pf.rsaEnc der seed msg = some ct ∧ (∀ b ∈ ct, b < 256) ∧
       pf.rsaDec jwk ct = some msg)

/-! ## Key generation and message encryption / decryption
(crypto.client.ts lines 95-156) -/

/-- Result of `generateAndStoreKeys`: the value written to
`localStorage["privateKey"]` and the returned PEM public key.  The
randomness of `generateKey` is made explicit: the generated pair is the
`(der, jwk)` argument. -/
structure KeygenResult where
  store : Option String
  pem : String
deriving DecidableEq

/-- `generateAndStoreKeys`: store the private JWK in localStorage and
return the PEM-encoded public key. -/
def generateAndStoreKeys (der : List Nat) (jwk : String) : KeygenResult :=
  { store := some jwk, pem := exportPublicKeyAsPem der }

/-- `encryptMessage(text, publicKeyPem)`: import the PEM key, UTF-8
encode the text, RSA-OAEP encrypt, base64 the result.  No try/catch, so
failures propagate to the caller (`Except`). -/
def encryptMessage (pf : Platform) (seed : List Nat) (text : String)
    (publicKeyPem : String) : Except CryptoError String :=
  match importRsaPublicKey pf.derOk publicKeyPem with
  | .error e => .error e
  | .ok der =>
    match pf.rsaEnc der seed (utf8Encode text) with
    | none => .error .plaintextTooLarge
    | some ct => .ok (b64Encode ct)

/-- The placeholder `decryptMessage` substitutes for an undecryptable
message ("cannot decrypt this message"). -/
def decryptFailedPlaceholder : String := "无法解密此消息"

/-- `decryptMessage(encryptedMessageBase64)`: load the private key from
localStorage, base64-decode, RSA-OAEP decrypt, UTF-8 decode.  The whole
body is wrapped in try/catch returning the placeholder, and
`getPrivateKey` itself returns null on parse/import failure, so the
function is total. -/
def decryptMessage (pf : Platform) (store : Option String)
    (encryptedMessageBase64 : String) : String :=
  match store with
  | none => decryptFailedPlaceholder
  | some jwk =>
    if pf.jwkOk jwk then
      match atob encryptedMessageBase64 with
      | none => decryptFailedPlaceholder
      | some ct =>
        match pf.rsaDec jwk ct with
        | none => decryptFailedPlaceholder
        | some pt => utf8Decode pt
    else decryptFailedPlaceholder

/-! ## AES-GCM (crypto.subtle encrypt/decrypt with name "AES-GCM")

Modelled from the spec (§4.2): GCM is counter-mode encryption under the
AES block cipher plus an authentication tag; WebCrypto appends the
16-byte tag to the ciphertext and checks it before releasing any
plaintext on decrypt.  The block cipher and the tag function are the
abstract `Platform` fields; counter mode itself is concrete. -/

/-- Big-endian 4-byte counter (the last 32 bits of each GCM counter
block). -/
def beBytes4 (n : Nat) : List Nat :=
  [n / 16777216 % 256, n / 65536 % 256, n / 256 % 256, n % 256]

/-- Byte `i` of the GCM-CTR keystream: byte `i % 16` of
`E_K(iv ∥ counter)` where the counter of the first payload block is 2. -/
def keystream (pf : Platform) (key iv : List Nat) (n : Nat) : List Nat :=
  (List.range n).map (fun i => (pf.aesBlock key (iv ++ beBytes4 (i / 16 + 2))).getD (i % 16) 0)

/-- The GCM ciphertext proper (plaintext XOR keystream). -/
def gcmCt (pf : Platform) (key iv pt : List Nat) : List Nat :=
  List.zipWith Nat.xor pt (keystream pf key iv pt.length)

/-- `crypto.subtle.encrypt({name:"AES-GCM", iv}, key, pt)`:
ciphertext with the 16-byte tag appended. -/
def gcmEncrypt (pf : Platform) (key iv pt : List Nat) : List Nat :=
  gcmCt pf key iv pt ++ pf.gcmTag key iv (gcmCt pf key iv pt)

/-- `crypto.subtle.decrypt({name:"AES-GCM", iv}, key, data)`: split off
the trailing 16-byte tag, verify it, and only then release the
plaintext; `none` models the OperationError on tag mismatch. -/
def gcmDecrypt (pf : Platform) (key iv data : List Nat) : Option (List Nat) :=
  if data.length < 16 then none
  else
    if data.drop (data.length - 16) = pf.gcmTag key iv (data.take (data.length - 16)) then
      some (List.zipWith Nat.xor (data.take (data.length - 16))
        (keystream pf key iv (data.take (data.length - 16)).length))
    else none

/-- The platform tag is 16 bytes (128-bit GCM tag). -/
def Platform.TagLen16 (pf : Platform) : Prop :=
  ∀ key iv ct, (pf.gcmTag key iv ct).length = 16

/-- Flip bit `k` of byte `j` of a byte list. -/
def flipByteBit (j k : Nat) (l : List Nat) : List Nat :=
  l.set j ((l.getD j 0) ^^^ (1 <<< k))

/-- Modelled from the spec (§4.2, §8 item 4): the platform's AES-GCM
authentication detects any single-bit corruption of the ciphertext —
flipping one bit of the ciphertext changes the tag. -/
def Platform.TamperEvident (pf : Platform) : Prop :=
  ∀ key iv ct j k, j < ct.length → k < 8 →
    pf.gcmTag key iv (flipByteBit j k ct) ≠ pf.gcmTag key iv ct

/-! ## Hybrid file encryption (encryptFile / decryptFile,
crypto.client.ts lines 164-246) -/

structure EncryptedFilePair where
  encryptedFile : List Nat
  encryptedKey : List Nat
deriving DecidableEq

/-- `encryptFile(file, publicKeyPem)`: generate a fresh AES-256 key
(`aesKey`, randomness explicit) and 12-byte IV (`iv`), AES-GCM encrypt
the file bytes, concatenate IV ∥ ciphertext into `encryptedFile`, and
RSA-OAEP encrypt the raw AES key under the imported PEM key into
`encryptedKey`.  No try/catch, so failures propagate. -/
def encryptFile (pf : Platform) (aesKey iv seed : List Nat) (fileBytes : List Nat)
    (publicKeyPem : String) : Except CryptoError EncryptedFilePair :=
  match importRsaPublicKey pf.derOk publicKeyPem with
  | .error e => .error e
  | .ok der =>
    match pf.rsaEnc der seed aesKey with
    | none => .error .plaintextTooLarge
    | some ek => .ok ⟨iv ++ gcmEncrypt pf aesKey iv fileBytes, ek⟩

/-- `decryptFile(encryptedFileBlob, encryptedKeyArrayBuffer)`: load the
private key (throwing if absent), RSA-decrypt the AES key, import it raw
(WebCrypto accepts 16/24/32-byte AES keys), slice the first 12 bytes as
IV and the remainder as GCM data, and AES-GCM decrypt.  Every failing
step throws, modelled as `DecryptionError`. -/
def decryptFile (pf : Platform) (store : Option String)
    (encryptedFile encryptedKey : List Nat) : Except CryptoError (List Nat) :=
  match store with
  | none => .error .decryptionError
  | some jwk =>
    if pf.jwkOk jwk then
      match pf.rsaDec jwk encryptedKey with
      | none => .error .decryptionError
      | some rawKey =>
        if rawKey.length = 16 ∨ rawKey.length = 24 ∨ rawKey.length = 32 then
          match gcmDecrypt pf rawKey (encryptedFile.take 12) (encryptedFile.drop 12) with
          | none => .error .decryptionError
          | some pt => .ok pt
        else .error .decryptionError
    else .error .decryptionError

/-! ## Chat state (app/routes/chat.tsx) -/

structure LastMessage where
  content : String
  timestamp : String
deriving DecidableEq

/-- The `Friend` interface of chat.tsx (lines 21-30). -/
structure Friend where
  id : String
  name : String
  avatar : String
  isOnline : Bool
  publicKey : Option String
  lastMessage : Option LastMessage
  ip : String
  port : Nat
deriving DecidableEq

instance : Inhabited Friend :=
  ⟨{ id := "", name := "", avatar := "", isOnline := false, publicKey := none,
     lastMessage := none, ip := "", port := 0 }⟩

/-- The `Message` interface of chat.tsx (lines 40-47); the `file` field
carries (fileName, fileType, status) for file messages. -/
structure Message where
  id : String
  senderId : String
  content : String
  timestamp : String
  isFile : Bool
  file : Option (String × String × String)
deriving DecidableEq

/-- A websocket or HTTP payload the client writes to the network.  Only
the fields the code puts in the JSON appear here. -/
inductive WireMsg where
  | messageSend (toId : String) (encryptedContent : String)
  | fileSend (toId fileName fileType encryptedFile encryptedKey : String)
  | keyUpload (publicKey : String)
deriving DecidableEq

/-- The component state of `ChatRoute` that the send handlers read and
write, together with the localStorage record the component's client can
reach (the private-key slot). -/
structure ChatState where
  friends : List Friend
  messages : List (String × List Message)
  selectedFriend : Option Friend
  wsOpen : Bool
  user : Option String
  privateKeyStore : Option String
deriving DecidableEq

/-- `setMessages(prev => ({...prev, [key]: [...(prev[key] ?? []), m]}))`
on the association-list model of the messages record. -/
def appendMsg (ms : List (String × List Message)) (key : String) (m : Message) :
    List (String × List Message) :=
  if ms.any (fun p => p.1 = key) then
    ms.map (fun p => if p.1 = key then (p.1, p.2 ++ [m]) else p)
  else ms ++ [(key, [m])]

/-- Outcome of `fetch` on the key-directory endpoint
`GET /api/users/{id}/key`. -/
inductive KeyLookup where
  | httpError
  | okNoKey
  | okKey (publicKey : String)

/-- `getFriendPublicKey` (chat.tsx lines 255-274).  Returns the result
(`throw` modelled as `.error ()`), the updated friends state, and
whether the network was consulted.  The cached key is used when the
friend entry has a truthy `publicKey`; a truthy fetched key is cached
into the friend entry. -/
def getFriendPublicKey (net : String → KeyLookup) (friends : List Friend)
    (friendId : String) : Except Unit String × List Friend × Bool :=
  match (friends.find? (fun f => f.id = friendId)).bind (fun f => f.publicKey) with
  | some pk => (.ok pk, friends, false)
  | none =>
    match net friendId with
    | .httpError => (.error (), friends, true)
    | .okNoKey => (.error (), friends, true)
    | .okKey pk =>
      if pk = "" then (.error (), friends, true)
      else (.ok pk,
        friends.map (fun f => if f.id = friendId then { f with publicKey := some pk } else f),
        true)

/-- `handleSendMessage` (chat.tsx lines 277-299).  Guards, then inside
try: fetch the recipient key, encrypt, `ws.send` the envelope, append
the plaintext to the local messages; the catch block only logs. -/
def handleSendMessage (pf : Platform) (seed : List Nat) (net : String → KeyLookup)
    (st : ChatState) (content : String) (now : String) : ChatState × List WireMsg :=
  match st.selectedFriend, st.wsOpen, st.user with
  | some sel, true, some username =>
    match getFriendPublicKey net st.friends sel.id with
    | (.error _, friends1, _) => ({ st with friends := friends1 }, [])
    | (.ok pk, friends1, _) =>
      match encryptMessage pf seed content pk with
      | .error _ => ({ st with friends := friends1 }, [])
      | .ok encryptedContent =>
        ({ st with
             friends := friends1
             messages := appendMsg st.messages sel.id
               { id := now, senderId := username, content := content, timestamp := now,
                 isFile := false, file := none } },
         [WireMsg.messageSend sel.id encryptedContent])
  | _, _, _ => (st, [])

/-- Replace the status of the optimistic file message `tempId`. -/
def setFileStatus (ms : List (String × List Message)) (key tempId status : String) :
    List (String × List Message) :=
  ms.map (fun p => if p.1 = key then
    (p.1, p.2.map (fun m => if m.id = tempId then
      { m with file := m.file.map (fun fi => (fi.1, fi.2.1, status)) } else m))
    else p)

/-- `handleFileSelect` (chat.tsx lines 301-363): guards, optimistic
"sending" message, then inside try: fetch key, hybrid-encrypt, base64
both blobs, `ws.send`, mark "sent"; the catch block marks "failed". -/
def handleFileSelect (pf : Platform) (aesKey iv seed : List Nat)
    (net : String → KeyLookup) (st : ChatState)
    (fileName fileType : String) (fileBytes : List Nat) (now : String) :
    ChatState × List WireMsg :=
  match st.selectedFriend, st.wsOpen, st.user with
  | some sel, true, some username =>
    match appendMsg st.messages sel.id
        { id := now, senderId := username, content := "", timestamp := now,
          isFile := true, file := some (fileName, fileType, "sending") } with
    | messages1 =>
      match getFriendPublicKey net st.friends sel.id with
      | (.error _, friends1, _) =>
          ({ st with
               friends := friends1
               messages := setFileStatus messages1 sel.id now "failed" }, [])
      | (.ok pk, friends1, _) =>
        match encryptFile pf aesKey iv seed fileBytes pk with
        | .error _ =>
            ({ st with
                 friends := friends1
                 messages := setFileStatus messages1 sel.id now "failed" }, [])
        | .ok pair =>
            ({ st with
                 friends := friends1
                 messages := setFileStatus messages1 sel.id now "sent" },
             [WireMsg.fileSend sel.id fileName fileType
                (b64Encode pair.encryptedFile) (b64Encode pair.encryptedKey)])
  | _, _, _ => (st, [])

/-- The `friend:offline` handler (chat.tsx lines 240-247):
`prev.map(f => f.id === u ? { ...f, isOnline: false } : f)`. -/
def friendOffline (username : String) (friends : List Friend) : List Friend :=
  friends.map (fun f => if f.id = username then { f with isOnline := false } else f)

/-- `uploadPublicKey` (chat.tsx lines 63-79): the body of the POST is
the JSON `{ publicKey }`. -/
def uploadPublicKeyWire (publicKey : String) : WireMsg :=
  WireMsg.keyUpload publicKey

/-- The `setupKeys` effect (chat.tsx lines 117-131): generate and store
the keypair, then upload the returned PEM public key.  Returns the new
localStorage value and the network payload. -/
def setupKeys (der : List Nat) (jwk : String) : Option String × List WireMsg :=
  match generateAndStoreKeys der jwk with
  | kg => (kg.store, [uploadPublicKeyWire kg.pem])

/-! ## A concrete platform instance

A small executable engine satisfying the platform contracts, used to
evaluate the theorems on concrete inputs. -/

def pf0 : Platform where
  derOk := fun der => der == [48]
  rsaEnc := fun _ _ msg => if 190 < msg.length then none else some (msg.length % 256 :: msg)
  jwkOk := fun jwk => jwk == "jwk0"
  rsaDec := fun _ ct =>
    match ct with
    | [] => none
    | _ :: rest => some rest
  aesBlock := fun _ _ => List.replicate 16 0
  gcmTag := fun _ _ ct => (ct.foldr (fun a b => a ^^^ b) 0) :: List.replicate 15 0

def key0 : List Nat := List.replicate 32 7

def iv0 : List Nat := List.replicate 12 0

def file0 : List Nat := [1, 2, 3]

def pair0 : EncryptedFilePair :=
  { encryptedFile := iv0 ++ gcmEncrypt pf0 key0 iv0 file0, encryptedKey := 32 :: key0 }

/-- A 191-character ASCII string (UTF-8 length 191). -/
def text191 : String := String.mk (List.replicate 191 'a')

/-- A directory that answers every lookup with the key "K". -/
def netK : String → KeyLookup := fun _ => KeyLookup.okKey "K"

/-- A directory whose lookups always fail at the HTTP layer. -/
def netFail : String → KeyLookup := fun _ => KeyLookup.httpError

def friendBob : Friend :=
  { id := "bob", name := "Bob", avatar := "a", isOnline := true, publicKey := none,
    lastMessage := none, ip := "127.0.0.1", port := 1 }

def chatState0 : ChatState :=
  { friends := [friendBob], messages := [], selectedFriend := some friendBob,
    wsOpen := true, user := some "alice", privateKeyStore := some "jwk0" }

theorem b64Val_b64Char : ∀ v, v < 64 → b64Val (b64Char v) = some v := by decide

theorem b64Char_ne_eq : ∀ v, v < 64 → b64Char v ≠ '=' := by decide

theorem asciiWs_b64Char : ∀ v, v < 64 → asciiWs (b64Char v) = false := by decide

theorem encVals_lt : ∀ bs : List Nat, (∀ b ∈ bs, b < 256) → ∀ v ∈ encVals bs, v < 64
  | [], _ => by simp [encVals]
  | [b1], h => by
      have h1 := h b1 (by simp)
      simp only [encVals, List.mem_cons, List.not_mem_nil, or_false]
      rintro v (rfl | rfl) <;> omega
  | [b1, b2], h => by
      have h1 := h b1 (by simp)
      have h2 := h b2 (by simp)
      simp only [encVals, List.mem_cons, List.not_mem_nil, or_false]
      rintro v (rfl | rfl | rfl) <;> omega
  | b1 :: b2 :: b3 :: rest, h => by
      have h1 := h b1 (by simp)
      have h2 := h b2 (by simp)
      have h3 := h b3 (by simp)
      have ih := encVals_lt rest (fun b hb => h b (by simp [hb]))
      simp only [encVals, List.mem_cons]
      rintro v (rfl | rfl | rfl | rfl | hv)
      · omega
      · omega
      · omega
      · omega
      · exact ih v hv

theorem decodeVals_encVals : ∀ bs : List Nat, (∀ b ∈ bs, b < 256) →
    decodeVals (encVals bs) = bs
  | [], _ => rfl
  | [b1], h => by
      have h1 := h b1 (by simp)
      simp only [encVals, decodeVals]
      congr 1
      omega
  | [b1, b2], h => by
      have h1 := h b1 (by simp)
      have h2 := h b2 (by simp)
      simp only [encVals, decodeVals]
      congr 1
      · omega
      · congr 1
        omega
  | b1 :: b2 :: b3 :: rest, h => by
      have h1 := h b1 (by simp)
      have h2 := h b2 (by simp)
      have h3 := h b3 (by simp)
      have ih := decodeVals_encVals rest (fun b hb => h b (by simp [hb]))
      simp only [encVals, decodeVals, ih]
      congr 1
      · omega
      · congr 1
        · omega
        · congr 1
          omega

theorem b64Vals_map_b64Char : ∀ vals : List Nat, (∀ v ∈ vals, v < 64) →
    b64Vals (vals.map b64Char) = some vals
  | [], _ => rfl
  | v :: vs, h => by
      have hv := h v (by simp)
      have ih := b64Vals_map_b64Char vs (fun w hw => h w (by simp [hw]))
      simp only [List.map_cons, b64Vals, b64Val_b64Char v hv, ih]

theorem encVals_length_mod :
    ∀ bs : List Nat, ((encVals bs).length + (b64PadChars bs).length) % 4 = 0
  | [] => by simp [encVals, b64PadChars]
  | [_] => by simp [encVals, b64PadChars]
  | [_, _] => by simp [encVals, b64PadChars]
  | b1 :: b2 :: b3 :: rest => by
      have ih := encVals_length_mod rest
      have hpad : b64PadChars (b1 :: b2 :: b3 :: rest) = b64PadChars rest := by
        have h3 : (b1 :: b2 :: b3 :: rest).length % 3 = rest.length % 3 := by
          simp only [List.length_cons]
          omega
        simp only [b64PadChars, h3]
      simp only [encVals, List.length_cons, hpad]
      omega

theorem b64PadChars_length_le :
    ∀ bs : List Nat, (b64PadChars bs).length ≤ 2 := by
  intro bs
  unfold b64PadChars
  rcases h : bs.length % 3 with _ | _ | n <;> simp

theorem b64PadChars_eq_replicate (bs : List Nat) :
    b64PadChars bs = List.replicate (b64PadChars bs).length '=' := by
  unfold b64PadChars
  rcases h : bs.length % 3 with _ | _ | n <;> rfl

theorem stripPadding_append (A : List Char) (p : Nat) (hp : p ≤ 2)
    (hA : ∀ c ∈ A, c ≠ '=') (hlen : (A.length + p) % 4 = 0) :
    stripPadding (A ++ List.replicate p '=') = A := by
  have hlen4 : (A ++ List.replicate p '=').length % 4 = 0 := by
    simp [List.length_append, List.length_replicate, hlen]
  unfold stripPadding
  rw [if_pos hlen4]
  interval_cases p
  · -- no padding
    simp only [List.replicate, List.append_nil]
    rcases hrev : A.reverse with _ | ⟨c1, r1⟩
    · rfl
    · have hc1 : c1 ∈ A := by
        have : c1 ∈ A.reverse := by rw [hrev]; exact List.mem_cons_self _ _
        simpa using this
      have hne1 := hA c1 hc1
      rcases r1 with _ | ⟨c2, r2⟩
      · simp [hne1]
      · simp [hne1]
  · -- one '='
    have hrw : A ++ List.replicate 1 '=' = A ++ ['='] := rfl
    rw [hrw]
    rcases hrev : A.reverse with _ | ⟨c2, r2⟩
    · have hAnil : A = [] := by simpa using congrArg List.reverse hrev
      subst hAnil
      simp
    · have hc2 : c2 ∈ A := by
        have : c2 ∈ A.reverse := by rw [hrev]; exact List.mem_cons_self _ _
        simpa using this
      have hne2 := hA c2 hc2
      have hrev2 : (A ++ ['=']).reverse = '=' :: c2 :: r2 := by
        rw [List.reverse_append, hrev]; rfl
      rw [hrev2]
      simp [hne2, ← hrev]
  · -- two '='
    have hrw : A ++ List.replicate 2 '=' = A ++ ['=', '='] := rfl
    rw [hrw]
    have hrev2 : (A ++ ['=', '=']).reverse = '=' :: '=' :: A.reverse := by
      rw [List.reverse_append]; rfl
    rw [hrev2]
    simp only [and_self, if_pos, List.reverse_reverse]

/-- Round-trip of the source's base64 helpers: `base64ToArrayBuffer`
applied to `arrayBufferToBase64` recovers the byte array. -/
theorem atob_b64Encode (bs : List Nat) (h : ∀ b ∈ bs, b < 256) :
    atob (b64Encode bs) = some bs := by
  have hvals := encVals_lt bs h
  have hA_ne : ∀ c ∈ (encVals bs).map b64Char, c ≠ '=' := by
    intro c hc
    obtain ⟨v, hv, rfl⟩ := List.mem_map.mp hc
    exact b64Char_ne_eq v (hvals v hv)
  have hA_ws : ∀ c ∈ (encVals bs).map b64Char, asciiWs c = false := by
    intro c hc
    obtain ⟨v, hv, rfl⟩ := List.mem_map.mp hc
    exact asciiWs_b64Char v (hvals v hv)
  have hlenmod := encVals_length_mod bs
  have hple := b64PadChars_length_le bs
  have hrep := b64PadChars_eq_replicate bs
  unfold atob b64Encode
  have htl : (String.mk ((encVals bs).map b64Char ++ b64PadChars bs)).toList
      = (encVals bs).map b64Char ++ b64PadChars bs := rfl
  rw [htl]
  have hfil : ((encVals bs).map b64Char ++ b64PadChars bs).filter (fun c => !asciiWs c)
      = (encVals bs).map b64Char ++ b64PadChars bs := by
    rw [List.filter_eq_self]
    intro c hc
    rcases List.mem_append.mp hc with hc1 | hc2
    · simp [hA_ws c hc1]
    · rw [hrep] at hc2
      have : c = '=' := List.eq_of_mem_replicate hc2
      subst this
      decide
  rw [hfil]
  have hstrip : stripPadding ((encVals bs).map b64Char ++ b64PadChars bs)
      = (encVals bs).map b64Char := by
    conv in (_ ++ b64PadChars bs) => rw [hrep]
    apply stripPadding_append _ _ hple hA_ne
    simpa using hlenmod
  rw [hstrip]
  have hlen1 : ((encVals bs).map b64Char).length % 4 ≠ 1 := by
    rw [List.length_map]
    omega
  rw [if_neg hlen1, b64Vals_map_b64Char _ hvals]
  simp [decodeVals_encVals bs h]

theorem utf8DecodeList_encChar (c : Char) (rest : List Nat) :
    utf8DecodeList (utf8EncodeChar c ++ rest) = c :: utf8DecodeList rest := by
  have hv : c.toNat < 55296 ∨ 57343 < c.toNat ∧ c.toNat < 1114112 := c.valid
  have hofn : Char.ofNat c.toNat = c := Char.ofNat_toNat c
  by_cases h1 : c.toNat < 0x80
  · rw [utf8EncodeChar, if_pos h1, List.cons_append, List.nil_append]
    rw [utf8DecodeList.eq_def]
    simp only []
    rw [if_pos (by omega : c.toNat ≤ 0x7F), hofn]
  · by_cases h2 : c.toNat < 0x800
    · rw [utf8EncodeChar, if_neg h1, if_pos h2]
      show utf8DecodeList (_ :: _ :: rest) = _
      rw [utf8DecodeList.eq_def]
      simp only []
      rw [if_neg (by omega), if_neg (by omega), if_pos (by omega)]
      simp only [if_pos (show 0x80 ≤ 0x80 + c.toNat % 64 ∧ 0x80 + c.toNat % 64 ≤ 0xBF by omega)]
      have harith : (0xC0 + c.toNat / 64 - 0xC0) * 64 + (0x80 + c.toNat % 64 - 0x80)
          = c.toNat := by omega
      rw [harith, hofn]
    · by_cases h3 : c.toNat < 0x10000
      · rw [utf8EncodeChar, if_neg h1, if_neg h2, if_pos h3]
        show utf8DecodeList (_ :: _ :: _ :: rest) = _
        rw [utf8DecodeList.eq_def]
        simp only []
        rw [if_neg (by omega), if_neg (by omega), if_neg (by omega), if_pos (by omega)]
        have hcond : (if 0xE0 + c.toNat / 4096 = 0xE0 then 0xA0 else 0x80) ≤
            0x80 + c.toNat / 64 % 64 ∧ 0x80 + c.toNat / 64 % 64 ≤
            (if 0xE0 + c.toNat / 4096 = 0xED then 0x9F else 0xBF) := by
          constructor
          · split
            · omega
            · omega
          · split
            · omega
            · omega
        simp only [if_pos hcond]
        simp only [if_pos (show 0x80 ≤ 0x80 + c.toNat % 64 ∧ 0x80 + c.toNat % 64 ≤ 0xBF by omega)]
        have harith : (0xE0 + c.toNat / 4096 - 0xE0) * 4096 +
            (0x80 + c.toNat / 64 % 64 - 0x80) * 64 + (0x80 + c.toNat % 64 - 0x80)
            = c.toNat := by omega
        rw [harith, hofn]
      · rw [utf8EncodeChar, if_neg h1, if_neg h2, if_neg h3]
        show utf8DecodeList (_ :: _ :: _ :: _ :: rest) = _
        rw [utf8DecodeList.eq_def]
        simp only []
        rw [if_neg (by omega), if_neg (by omega), if_neg (by omega), if_neg (by omega),
          if_pos (by omega)]
        have hcond : (if 0xF0 + c.toNat / 262144 = 0xF0 then 0x90 else 0x80) ≤
            0x80 + c.toNat / 4096 % 64 ∧ 0x80 + c.toNat / 4096 % 64 ≤
            (if 0xF0 + c.toNat / 262144 = 0xF4 then 0x8F else 0xBF) := by
          constructor
          · split
            · omega
            · omega
          · split
            · omega
            · omega
        simp only [if_pos hcond]
        simp only [if_pos (show 0x80 ≤ 0x80 + c.toNat / 64 % 64 ∧
          0x80 + c.toNat / 64 % 64 ≤ 0xBF by omega)]
        simp only [if_pos (show 0x80 ≤ 0x80 + c.toNat % 64 ∧ 0x80 + c.toNat % 64 ≤ 0xBF by omega)]
        have harith : (0xF0 + c.toNat / 262144 - 0xF0) * 262144 +
            (0x80 + c.toNat / 4096 % 64 - 0x80) * 4096 +
            (0x80 + c.toNat / 64 % 64 - 0x80) * 64 + (0x80 + c.toNat % 64 - 0x80)
            = c.toNat := by omega
        rw [harith, hofn]

theorem utf8DecodeList_encodeList : ∀ cs : List Char,
    utf8DecodeList (utf8EncodeList cs) = cs
  | [] => rfl
  | c :: cs => by
      rw [utf8EncodeList, utf8DecodeList_encChar, utf8DecodeList_encodeList cs]

/-- TextDecoder undoes TextEncoder. -/
theorem utf8Decode_utf8Encode (s : String) : utf8Decode (utf8Encode s) = s := by
  rw [utf8Encode, utf8Decode, utf8DecodeList_encodeList]
  rfl

theorem utf8EncodeChar_lt (c : Char) : ∀ b ∈ utf8EncodeChar c, b < 256 := by
  have hv : c.toNat < 55296 ∨ 57343 < c.toNat ∧ c.toNat < 1114112 := c.valid
  intro b hb
  unfold utf8EncodeChar at hb
  split at hb
  · simp at hb
    omega
  · split at hb
    · simp at hb
      rcases hb with rfl | rfl <;> omega
    · split at hb
      · simp at hb
        rcases hb with rfl | rfl | rfl <;> omega
      · simp at hb
        rcases hb with rfl | rfl | rfl | rfl <;> omega

theorem utf8Encode_lt (s : String) : ∀ b ∈ utf8Encode s, b < 256 := by
  rw [utf8Encode]
  generalize s.toList = cs
  induction cs with
  | nil => simp [utf8EncodeList]
  | cons c cs ih =>
      intro b hb
      rw [utf8EncodeList] at hb
      rcases List.mem_append.mp hb with h | h
      · exact utf8EncodeChar_lt c b h
      · exact ih b h

theorem replaceFirst_append_self (pat rest : List Char) :
    replaceFirst (pat ++ rest) pat = rest := by
  cases pat with
  | nil =>
      cases rest with
      | nil => rfl
      | cons c r =>
          show replaceFirst (c :: r) [] = c :: r
          rw [replaceFirst]
          simp [List.isPrefixOf]
  | cons p ps =>
      show replaceFirst (p :: (ps ++ rest)) (p :: ps) = rest
      rw [replaceFirst]
      have hpre : (p :: ps).isPrefixOf (p :: (ps ++ rest)) = true := by
        apply List.isPrefixOf_iff_prefix.mpr
        exact ⟨rest, by simp⟩
      rw [if_pos hpre]
      show ((p :: ps) ++ rest).drop (p :: ps).length = rest
      exact List.drop_left _ _

theorem replaceFirst_append_of_head_ne (s1 : List Char) (ph : Char) (pt : List Char)
    (h : ∀ c ∈ s1, c ≠ ph) :
    replaceFirst (s1 ++ (ph :: pt)) (ph :: pt) = s1 := by
  induction s1 with
  | nil => simpa using replaceFirst_append_self (ph :: pt) []
  | cons c s1' ih =>
      have hc : c ≠ ph := h c (by simp)
      show replaceFirst (c :: (s1' ++ (ph :: pt))) (ph :: pt) = c :: s1'
      rw [replaceFirst]
      have hnpre : (ph :: pt).isPrefixOf (c :: (s1' ++ (ph :: pt))) = false := by
        apply Bool.eq_false_iff.mpr
        intro hcon
        have := List.isPrefixOf_iff_prefix.mp hcon
        rcases this with ⟨t, ht⟩
        have : ph = c := by
          have := congrArg (fun l => l.headD ' ') ht
          simpa using this
        exact hc this.symm
      rw [hnpre]
      simp only [Bool.false_eq_true, if_false, List.cons.injEq, true_and]
      exact ih (fun d hd => h d (by simp [hd]))

theorem b64Char_ne_dash : ∀ v, v < 64 → b64Char v ≠ '-' := by decide

theorem jsWs_b64Char : ∀ v, v < 64 → jsWs (b64Char v) = false := by decide

theorem b64Encode_toList (bs : List Nat) :
    (b64Encode bs).toList = (encVals bs).map b64Char ++ b64PadChars bs := rfl

theorem b64Encode_chars (bs : List Nat) (h : ∀ b ∈ bs, b < 256) :
    ∀ c ∈ (b64Encode bs).toList, c ≠ '-' ∧ jsWs c = false := by
  intro c hc
  rw [b64Encode_toList] at hc
  rcases List.mem_append.mp hc with h1 | h2
  · obtain ⟨v, hv, rfl⟩ := List.mem_map.mp h1
    have hlt := encVals_lt bs h v hv
    exact ⟨b64Char_ne_dash v hlt, jsWs_b64Char v hlt⟩
  · rw [b64PadChars_eq_replicate bs] at h2
    have : c = '=' := List.eq_of_mem_replicate h2
    subst this
    refine ⟨by decide, by decide⟩

/-- `importRsaPublicKey ∘ exportPublicKeyAsPem` recovers the DER bytes. -/
theorem importRsaPublicKey_export (derOk : List Nat → Bool) (der : List Nat)
    (hbytes : ∀ b ∈ der, b < 256) (hok : derOk der = true) :
    importRsaPublicKey derOk (exportPublicKeyAsPem der) = .ok der := by
  have htl : (exportPublicKeyAsPem der).toList =
      pemHeader.toList ++ ('\n' :: ((b64Encode der).toList ++ '\n' :: pemFooter.toList)) := by
    show (pemHeader ++ "\n" ++ b64Encode der ++ "\n" ++ pemFooter).toList = _
    show pemHeader.toList ++ "\n".toList ++ (b64Encode der).toList ++ "\n".toList
      ++ pemFooter.toList = _
    simp
  have hne : exportPublicKeyAsPem der ≠ "" := by
    intro hcon
    have := congrArg String.toList hcon
    rw [htl] at this
    simp [pemHeader] at this
  have hstep1 : replaceFirst (exportPublicKeyAsPem der).toList pemHeader.toList =
      '\n' :: ((b64Encode der).toList ++ '\n' :: pemFooter.toList) := by
    rw [htl]
    exact replaceFirst_append_self _ _
  have hfoot : pemFooter.toList = '-' :: "----END PUBLIC KEY-----".toList := rfl
  have hstep2 : replaceFirst ('\n' :: ((b64Encode der).toList ++ '\n' :: pemFooter.toList))
      pemFooter.toList = '\n' :: ((b64Encode der).toList ++ ['\n']) := by
    have hsplit : '\n' :: ((b64Encode der).toList ++ '\n' :: pemFooter.toList) =
        ('\n' :: ((b64Encode der).toList ++ ['\n'])) ++ pemFooter.toList := by
      simp
    rw [hsplit, hfoot]
    apply replaceFirst_append_of_head_ne
    intro c hc
    rcases List.mem_cons.mp hc with rfl | hc2
    · decide
    · rcases List.mem_append.mp hc2 with h1 | h2
      · exact (b64Encode_chars der hbytes c h1).1
      · have : c = '\n' := by simpa using h2
        subst this
        decide
  have hfil : (('\n' :: ((b64Encode der).toList ++ ['\n'])).filter (fun c => !jsWs c)) =
      (b64Encode der).toList := by
    have hnl : jsWs '\n' = true := by decide
    simp only [List.filter_cons, hnl, Bool.not_true]
    rw [List.filter_append]
    have h1 : (b64Encode der).toList.filter (fun c => !jsWs c) = (b64Encode der).toList := by
      rw [List.filter_eq_self]
      intro c hc
      simp [(b64Encode_chars der hbytes c hc).2]
    rw [h1]
    simp [hnl]
  have hcontents : pemContents (exportPublicKeyAsPem der) = b64Encode der := by
    unfold pemContents
    rw [hstep1, hstep2, hfil]
    rfl
  unfold importRsaPublicKey
  rw [if_neg hne, hcontents, atob_b64Encode der hbytes]
  simp [hok]

theorem keystream_length (pf : Platform) (key iv : List Nat) (n : Nat) :
    (keystream pf key iv n).length = n := by
  simp [keystream]

theorem zipWith_xor_cancel : ∀ (pt ks : List Nat), pt.length ≤ ks.length →
    List.zipWith Nat.xor (List.zipWith Nat.xor pt ks) ks = pt
  | [], _, _ => by simp
  | p :: pt, [], h => by simp at h
  | p :: pt, k :: ks, h => by
      simp only [List.zipWith_cons_cons]
      rw [zipWith_xor_cancel pt ks (by simpa using h)]
      congr 1
      exact Nat.xor_cancel_right k p

theorem gcmCt_length (pf : Platform) (key iv pt : List Nat) :
    (gcmCt pf key iv pt).length = pt.length := by
  simp [gcmCt, keystream_length]

theorem gcmDecrypt_gcmEncrypt (pf : Platform) (htag : pf.TagLen16)
    (key iv pt : List Nat) :
    gcmDecrypt pf key iv (gcmEncrypt pf key iv pt) = some pt := by
  have hctlen := gcmCt_length pf key iv pt
  have htlen := htag key iv (gcmCt pf key iv pt)
  have hdlen : (gcmEncrypt pf key iv pt).length = pt.length + 16 := by
    simp [gcmEncrypt, hctlen, htlen]
  have hsub : (gcmEncrypt pf key iv pt).length - 16 = (gcmCt pf key iv pt).length := by
    omega
  unfold gcmDecrypt
  rw [if_neg (by omega)]
  rw [hsub]
  unfold gcmEncrypt
  rw [List.drop_left, List.take_left]
  rw [if_pos rfl]
  congr 1
  unfold gcmCt
  rw [List.length_zipWith, keystream_length, Nat.min_self]
  exact zipWith_xor_cancel pt _ (by rw [keystream_length])

theorem xor_shift_ne (x k : Nat) : x ^^^ (1 <<< k) ≠ x := by
  intro h
  have h2 : x ^^^ (x ^^^ (1 <<< k)) = x ^^^ x := by rw [h]
  rw [← Nat.xor_assoc, Nat.xor_self, Nat.zero_xor] at h2
  rw [Nat.one_shiftLeft] at h2
  have hpos : 0 < 2 ^ k := Nat.pos_pow_of_pos k (by omega)
  omega

theorem foldr_xor_set : ∀ (l : List Nat) (j v : Nat), j < l.length →
    (l.set j v).foldr (fun a b => a ^^^ b) 0 =
      (l.foldr (fun a b => a ^^^ b) 0) ^^^ (l.getD j 0) ^^^ v
  | [], j, v, h => by simp at h
  | a :: tl, 0, v, _ => by
      simp only [List.set_cons_zero, List.foldr_cons, List.getD_cons_zero]
      have h1 : (a ^^^ tl.foldr (fun a b => a ^^^ b) 0) ^^^ a
          = tl.foldr (fun a b => a ^^^ b) 0 := by
        rw [Nat.xor_comm a (tl.foldr (fun a b => a ^^^ b) 0), Nat.xor_assoc,
          Nat.xor_self, Nat.xor_zero]
      rw [h1, Nat.xor_comm]
  | a :: tl, j + 1, v, h => by
      simp only [List.set_cons_succ, List.foldr_cons, List.getD_cons_succ]
      have ih := foldr_xor_set tl j v (by simpa using h)
      rw [ih, ← Nat.xor_assoc, ← Nat.xor_assoc]

theorem pf0_keypair : pf0.Keypair [48] "jwk0" := by
  refine ⟨?_, rfl, rfl, ?_, ?_⟩
  · intro b hb
    simp at hb
    omega
  · intro seed msg h
    show (if 190 < msg.length then none else some (msg.length % 256 :: msg)) = none
    rw [if_pos h]
  · intro seed msg hlen hbytes
    refine ⟨msg.length % 256 :: msg, ?_, ?_, rfl⟩
    · show (if 190 < msg.length then none else some (msg.length % 256 :: msg)) = some _
      rw [if_neg (by omega)]
    · intro b hb
      rcases List.mem_cons.mp hb with rfl | hb2
      · omega
      · exact hbytes b hb2

theorem pf0_taglen : pf0.TagLen16 := by
  intro key iv ct
  simp [pf0]

theorem pf0_tamper : pf0.TamperEvident := by
  intro key iv ct j k hj hk heq
  have h1 : (flipByteBit j k ct).foldr (fun a b => a ^^^ b) 0
      = ct.foldr (fun a b => a ^^^ b) 0 := by
    have := congrArg (fun l => l.headD 0) heq
    simpa [pf0] using this
  unfold flipByteBit at h1
  rw [foldr_xor_set ct j _ hj] at h1
  rw [Nat.xor_assoc, ← Nat.xor_assoc (ct.getD j 0) (ct.getD j 0) (1 <<< k),
    Nat.xor_self, Nat.zero_xor] at h1
  exact xor_shift_ne (ct.foldr (fun a b => a ^^^ b) 0) k h1

/-! ## Claim theorems -/

/-- C2: for every plaintext whose UTF-8 encoding is at most 190 bytes
and every keypair produced by `generateAndStoreKeys`, `decryptMessage`
(run with the stored private key) applied to
`encryptMessage(text, publicKeyPem)` returns exactly the original
text. -/
theorem message_roundtrip_short (pf : Platform) (der : List Nat) (jwk : String)
    (hkp : pf.Keypair der jwk) (seed : List Nat) (text : String)
    (hlen : (utf8Encode text).length ≤ 190) :
    ∃ ct, encryptMessage pf seed text (generateAndStoreKeys der jwk).pem = .ok ct ∧
      decryptMessage pf (generateAndStoreKeys der jwk).store ct = text := by
  obtain ⟨hbytes, hder, hjwk, hbig, hok⟩ := hkp
  obtain ⟨ct, hct, hctbytes, hdec⟩ := hok seed (utf8Encode text) hlen (utf8Encode_lt text)
  refine ⟨b64Encode ct, ?_, ?_⟩
  · unfold encryptMessage
    rw [show (generateAndStoreKeys der jwk).pem = exportPublicKeyAsPem der from rfl,
      importRsaPublicKey_export pf.derOk der hbytes hder]
    simp only [hct]
  · show decryptMessage pf (some jwk) (b64Encode ct) = text
    unfold decryptMessage
    simp only [hjwk, if_true, atob_b64Encode ct hctbytes, hdec]
    exact utf8Decode_utf8Encode text

set_option maxRecDepth 4000 in
/-- C2 witness: the round trip evaluated on the concrete engine. -/
theorem message_roundtrip_short_witness :
    ∃ ct, encryptMessage pf0 [] "hi" (generateAndStoreKeys [48] "jwk0").pem = .ok ct ∧
      decryptMessage pf0 (generateAndStoreKeys [48] "jwk0").store ct = "hi" :=
  message_roundtrip_short pf0 [48] "jwk0" pf0_keypair [] "hi" (by decide)

/-- C4: `encryptMessage` fails with `PlaintextTooLarge` whenever the
UTF-8 length of the plaintext exceeds the 190-byte OAEP bound (in
particular at 191 bytes). -/
theorem encrypt_bound_enforced (pf : Platform) (der : List Nat) (jwk : String)
    (hkp : pf.Keypair der jwk) (seed : List Nat) (text : String)
    (hlen : 190 < (utf8Encode text).length) :
    encryptMessage pf seed text (generateAndStoreKeys der jwk).pem =
      .error .plaintextTooLarge := by
  obtain ⟨hbytes, hder, _, hbig, _⟩ := hkp
  unfold encryptMessage
  rw [show (generateAndStoreKeys der jwk).pem = exportPublicKeyAsPem der from rfl,
    importRsaPublicKey_export pf.derOk der hbytes hder]
  simp only [hbig seed (utf8Encode text) hlen]

set_option maxRecDepth 8000 in
/-- C4 witness: a 191-byte plaintext is rejected. -/
theorem encrypt_bound_enforced_witness :
    encryptMessage pf0 [] text191 (generateAndStoreKeys [48] "jwk0").pem =
      .error .plaintextTooLarge :=
  encrypt_bound_enforced pf0 [48] "jwk0" pf0_keypair [] text191 (by decide)

/-- C6: whenever RSA decryption cannot proceed — no stored private key,
an unloadable key, a ciphertext that fails base64 decoding, or a
padding/integrity failure in `crypto.subtle.decrypt` — `decryptMessage`
does not throw: it returns the visible placeholder string, and the
caller continues. -/
theorem decrypt_never_throws (pf : Platform) (store : Option String) (c : String) :
    (store = none → decryptMessage pf store c = decryptFailedPlaceholder) ∧
    (∀ jwk, store = some jwk → pf.jwkOk jwk = false →
      decryptMessage pf store c = decryptFailedPlaceholder) ∧
    (∀ jwk, store = some jwk → atob c = none →
      decryptMessage pf store c = decryptFailedPlaceholder) ∧
    (∀ jwk ct, store = some jwk → atob c = some ct → pf.rsaDec jwk ct = none →
      decryptMessage pf store c = decryptFailedPlaceholder) := by
  refine ⟨?_, ?_, ?_, ?_⟩
  · rintro rfl
    rfl
  · rintro jwk rfl hbad
    unfold decryptMessage
    simp [hbad]
  · rintro jwk rfl hat
    unfold decryptMessage
    by_cases hj : pf.jwkOk jwk <;> simp [hj, hat]
  · rintro jwk ct rfl hat hdec
    unfold decryptMessage
    by_cases hj : pf.jwkOk jwk <;> simp [hj, hat, hdec]

/-- C6 witness: the placeholder is returned on a missing key, an
unloadable key, an invalid base64 ciphertext, and an RSA decryption
failure. -/
theorem decrypt_never_throws_witness :
    decryptMessage pf0 none "zzz" = decryptFailedPlaceholder ∧
    decryptMessage pf0 (some "other") "zzz" = decryptFailedPlaceholder ∧
    decryptMessage pf0 (some "jwk0") "!!" = decryptFailedPlaceholder ∧
    decryptMessage pf0 (some "jwk0") "" = decryptFailedPlaceholder :=
  ⟨(decrypt_never_throws pf0 none "zzz").1 rfl,
   (decrypt_never_throws pf0 (some "other") "zzz").2.1 "other" rfl (by decide),
   (decrypt_never_throws pf0 (some "jwk0") "!!").2.2.1 "jwk0" rfl (by decide),
   (decrypt_never_throws pf0 (some "jwk0") "").2.2.2 "jwk0" [] rfl (by decide) (by decide)⟩

/-- C5 counterexample: a bare base64 SPKI body with no PEM delimiters is
accepted by `importRsaPublicKey` — the code only strips the delimiters
when present and never requires them — refuting "fails ... exactly when
the input ... lacks the PEM BEGIN/END PUBLIC KEY delimiters". -/
theorem import_no_delimiters_cex :
    importRsaPublicKey pf0.derOk (b64Encode [48]) = .ok [48] ∧
    hasPemDelimiters (b64Encode [48]) = false := by
  constructor
  · rfl
  · rfl

/-- C5 amended: `importRsaPublicKey` fails with `InvalidKeyFormat`
exactly when the input string is empty, or the stripped body fails
forgiving-base64 decoding, or the SPKI DER decode fails; missing PEM
delimiters alone do not cause a failure, and in every non-failing case
the decoded key is returned. -/
theorem import_failure_classification (derOk : List Nat → Bool) (pemKey : String) :
    (importRsaPublicKey derOk pemKey = .error .invalidKeyFormat ↔
      (pemKey = "" ∨ atob (pemContents pemKey) = none ∨
        (∃ der, atob (pemContents pemKey) = some der ∧ derOk der = false))) ∧
    (∀ der, pemKey ≠ "" → atob (pemContents pemKey) = some der → derOk der = true →
      importRsaPublicKey derOk pemKey = .ok der) := by
  constructor
  · constructor
    · intro h
      by_cases he : pemKey = ""
      · exact Or.inl he
      · rcases hat : atob (pemContents pemKey) with _ | der
        · exact Or.inr (Or.inl rfl)
        · unfold importRsaPublicKey at h
          rw [if_neg he, hat] at h
          by_cases hd : derOk der
          · simp [hd] at h
          · exact Or.inr (Or.inr ⟨der, rfl, by simpa using hd⟩)
    · intro h
      unfold importRsaPublicKey
      rcases h with rfl | hat | ⟨der, hat, hd⟩
      · simp
      · by_cases he : pemKey = "" <;> simp [he, hat]
      · by_cases he : pemKey = "" <;> simp [he, hat, hd]
  · intro der hne hat hd
    unfold importRsaPublicKey
    simp [hne, hat, hd]

/-- C5 witness: the amended classification evaluated on an empty input
and on a bare base64 body. -/
theorem import_failure_classification_witness :
    importRsaPublicKey pf0.derOk "" = .error .invalidKeyFormat ∧
    importRsaPublicKey pf0.derOk (b64Encode [48]) = .ok [48] :=
  ⟨(import_failure_classification pf0.derOk "").1.mpr (Or.inl rfl),
   (import_failure_classification pf0.derOk (b64Encode [48])).2 [48] (by decide)
     (by decide) rfl⟩

/-- C1: for every byte sequence (of any length, including empty) and
every keypair produced by `generateAndStoreKeys`, `decryptFile` with the
stored private key applied to the `(encryptedFile, encryptedKey)` pair
returned by `encryptFile` recovers exactly the original bytes. -/
theorem hybrid_file_roundtrip (pf : Platform) (der : List Nat) (jwk : String)
    (hkp : pf.Keypair der jwk) (htag : pf.TagLen16)
    (aesKey iv seed fileBytes : List Nat) (hklen : aesKey.length = 32)
    (hkbytes : ∀ b ∈ aesKey, b < 256) (hiv : iv.length = 12) :
    ∃ pair, encryptFile pf aesKey iv seed fileBytes (generateAndStoreKeys der jwk).pem
        = .ok pair ∧
      decryptFile pf (generateAndStoreKeys der jwk).store pair.encryptedFile
        pair.encryptedKey = .ok fileBytes := by
  obtain ⟨hbytes, hder, hjwk, hbig, hok⟩ := hkp
  obtain ⟨ek, hek, hekbytes, hdec⟩ := hok seed aesKey (by omega) hkbytes
  refine ⟨⟨iv ++ gcmEncrypt pf aesKey iv fileBytes, ek⟩, ?_, ?_⟩
  · unfold encryptFile
    rw [show (generateAndStoreKeys der jwk).pem = exportPublicKeyAsPem der from rfl,
      importRsaPublicKey_export pf.derOk der hbytes hder]
    simp only [hek]
  · show decryptFile pf (some jwk) _ _ = .ok fileBytes
    unfold decryptFile
    simp only [hjwk, if_true, hdec]
    rw [if_pos (Or.inr (Or.inr hklen))]
    have ht : (iv ++ gcmEncrypt pf aesKey iv fileBytes).take 12 = iv := by
      rw [← hiv]
      exact List.take_left iv _
    have hd : (iv ++ gcmEncrypt pf aesKey iv fileBytes).drop 12
        = gcmEncrypt pf aesKey iv fileBytes := by
      rw [← hiv]
      exact List.drop_left iv _
    rw [ht, hd, gcmDecrypt_gcmEncrypt pf htag aesKey iv fileBytes]

/-- C1 witness: the hybrid round trip evaluated on the concrete
engine. -/
theorem hybrid_file_roundtrip_witness :
    ∃ pair, encryptFile pf0 key0 iv0 [] file0 (generateAndStoreKeys [48] "jwk0").pem
        = .ok pair ∧
      decryptFile pf0 (generateAndStoreKeys [48] "jwk0").store pair.encryptedFile
        pair.encryptedKey = .ok file0 :=
  hybrid_file_roundtrip pf0 [48] "jwk0" pf0_keypair pf0_taglen key0 iv0 [] file0
    (by decide) (by decide) (by decide)

/-- C3: flipping any single bit of any byte of the ciphertext portion
of `encryptedFile` (any byte after the first 12, which hold the IV)
makes `decryptFile` fail with `DecryptionError`; no corrupted plaintext
is returned.  The single-bit tamper evidence of the platform's AES-GCM
tag is the `TamperEvident` contract. -/
theorem tamper_detection (pf : Platform) (der : List Nat) (jwk : String)
    (hkp : pf.Keypair der jwk) (htag : pf.TagLen16) (hte : pf.TamperEvident)
    (aesKey iv seed fileBytes : List Nat) (hklen : aesKey.length = 32)
    (hkbytes : ∀ b ∈ aesKey, b < 256) (hiv : iv.length = 12)
    (pair : EncryptedFilePair) (j k : Nat)
    (hpair : encryptFile pf aesKey iv seed fileBytes (generateAndStoreKeys der jwk).pem
      = .ok pair)
    (hj : 12 ≤ j) (hjlt : j < pair.encryptedFile.length) (hk : k < 8) :
    decryptFile pf (generateAndStoreKeys der jwk).store
      (flipByteBit j k pair.encryptedFile) pair.encryptedKey
      = .error .decryptionError := by
  obtain ⟨hbytes, hder, hjwk, hbig, hok⟩ := hkp
  obtain ⟨ek, hek, hekbytes, hdec⟩ := hok seed aesKey (by omega) hkbytes
  have hp : pair = ⟨iv ++ gcmEncrypt pf aesKey iv fileBytes, ek⟩ := by
    unfold encryptFile at hpair
    rw [show (generateAndStoreKeys der jwk).pem = exportPublicKeyAsPem der from rfl,
      importRsaPublicKey_export pf.derOk der hbytes hder] at hpair
    simp only [hek] at hpair
    exact ((Except.ok.injEq _ _).mp hpair).symm
  subst hp
  have hct := gcmCt_length pf aesKey iv fileBytes
  have htg := htag aesKey iv (gcmCt pf aesKey iv fileBytes)
  set ct := gcmCt pf aesKey iv fileBytes with hctdef
  set tg := pf.gcmTag aesKey iv ct with htgdef
  have hivlen : iv.length ≤ j := by omega
  have hflip : flipByteBit j k (iv ++ gcmEncrypt pf aesKey iv fileBytes)
      = iv ++ flipByteBit (j - 12) k (ct ++ tg) := by
    unfold flipByteBit
    rw [List.set_append_right _ _ hivlen, List.getD_append_right _ _ _ _ hivlen, hiv]
    rfl
  have hdlen : (ct ++ tg).length = fileBytes.length + 16 := by
    simp [hct, htg]
  have hjd : j - 12 < (ct ++ tg).length := by
    have : (iv ++ gcmEncrypt pf aesKey iv fileBytes).length
        = 12 + (ct ++ tg).length := by
      simp only [gcmEncrypt, ← hctdef, ← htgdef, List.length_append, hiv]
    simp only [EncryptedFilePair.mk.injEq] at hjlt ⊢
    omega
  rw [hflip]
  show decryptFile pf (some jwk) _ _ = .error .decryptionError
  unfold decryptFile
  simp only [hjwk, if_true, hdec]
  rw [if_pos (Or.inr (Or.inr hklen))]
  have ht12 : (iv ++ flipByteBit (j - 12) k (ct ++ tg)).take 12 = iv := by
    rw [← hiv]
    exact List.take_left iv _
  have hd12 : (iv ++ flipByteBit (j - 12) k (ct ++ tg)).drop 12
      = flipByteBit (j - 12) k (ct ++ tg) := by
    rw [← hiv]
    exact List.drop_left iv _
  rw [ht12, hd12]
  have hnone : gcmDecrypt pf aesKey iv (flipByteBit (j - 12) k (ct ++ tg)) = none := by
    by_cases hci : j - 12 < ct.length
    · -- the flip lands in the GCM ciphertext proper
      have hsplit : flipByteBit (j - 12) k (ct ++ tg)
          = flipByteBit (j - 12) k ct ++ tg := by
        unfold flipByteBit
        rw [List.set_append_left _ _ hci, List.getD_append _ _ _ _ hci]
      rw [hsplit]
      have hlen1 : (flipByteBit (j - 12) k ct).length = ct.length := by
        simp [flipByteBit]
      unfold gcmDecrypt
      rw [if_neg (by simp only [List.length_append, hlen1, htg]; omega)]
      have hsub : (flipByteBit (j - 12) k ct ++ tg).length - 16
          = (flipByteBit (j - 12) k ct).length := by
        simp [hlen1, htg]
      rw [hsub, List.drop_left, List.take_left]
      rw [if_neg ?_]
      · intro hcon
        exact hte aesKey iv ct (j - 12) k hci hk hcon.symm
    · -- the flip lands in the appended authentication tag
      have hci2 : ct.length ≤ j - 12 := by omega
      have hidx : j - 12 - ct.length < tg.length := by
        rw [htg]
        rw [List.length_append] at hjd
        omega
      have hsplit : flipByteBit (j - 12) k (ct ++ tg)
          = ct ++ tg.set (j - 12 - ct.length)
              (tg.getD (j - 12 - ct.length) 0 ^^^ (1 <<< k)) := by
        unfold flipByteBit
        rw [List.set_append_right _ _ hci2, List.getD_append_right _ _ _ _ hci2]
      rw [hsplit]
      have hlen2 : (tg.set (j - 12 - ct.length)
          (tg.getD (j - 12 - ct.length) 0 ^^^ (1 <<< k))).length = tg.length := by
        simp
      unfold gcmDecrypt
      rw [if_neg (by simp only [List.length_append, hlen2, htg]; omega)]
      have hsub : (ct ++ tg.set (j - 12 - ct.length)
          (tg.getD (j - 12 - ct.length) 0 ^^^ (1 <<< k))).length - 16 = ct.length := by
        simp [hlen2, htg]
      rw [hsub, List.drop_left, List.take_left]
      rw [if_neg ?_]
      · intro hcon
        have hget := congrArg (fun l => l.getD (j - 12 - ct.length) 0) hcon
        simp only at hget
        rw [List.getD_eq_getElem _ _ (by simpa [hlen2] using hidx)] at hget
        rw [List.getElem_set_self] at hget
        rw [← htgdef] at hget
        rw [List.getD_eq_getElem _ _ hidx] at hget
        rw [← List.getD_eq_getElem tg 0 hidx] at hget
        exact xor_shift_ne (tg.getD (j - 12 - ct.length) 0) k hget
  rw [hnone]

/-- C3 witness: flipping bit 0 of byte 12 of a concrete encrypted file
makes decryption fail. -/
theorem tamper_detection_witness :
    decryptFile pf0 (generateAndStoreKeys [48] "jwk0").store
      (flipByteBit 12 0 pair0.encryptedFile) pair0.encryptedKey
      = .error .decryptionError :=
  tamper_detection pf0 [48] "jwk0" pf0_keypair pf0_taglen pf0_tamper key0 iv0 [] file0
    (by decide) (by decide) (by decide) pair0 12 0 rfl (by decide) (by decide) (by decide)

theorem getFriendPublicKey_error_shape (net : String → KeyLookup) (fs : List Friend)
    (friendId : String)
    (h : (getFriendPublicKey net fs friendId).1 = .error ()) :
    getFriendPublicKey net fs friendId = (.error (), fs, true) := by
  unfold getFriendPublicKey at h ⊢
  rcases hc : (fs.find? (fun f => f.id = friendId)).bind (fun f => f.publicKey) with _ | pk
  · rcases hn : net friendId with _ | _ | pk2
    · simp [hc, hn]
    · simp [hc, hn]
    · by_cases hpk : pk2 = ""
      · simp [hc, hn, hpk]
      · rw [hc] at h
        simp only [hn] at h
        rw [if_neg hpk] at h
        simp at h
  · rw [hc] at h
    simp at h

theorem find?_update_publicKey (fs : List Friend) (friendId pk : String)
    (hmem : ∃ f ∈ fs, f.id = friendId) :
    ((fs.map (fun f => if f.id = friendId then { f with publicKey := some pk } else f)).find?
      (fun f => f.id = friendId)).bind (fun f => f.publicKey) = some pk := by
  induction fs with
  | nil => simp at hmem
  | cons g rest ih =>
      by_cases hg : g.id = friendId
      · simp only [List.map_cons, if_pos hg]
        rw [List.find?_cons_of_pos _ (by simp [hg])]
        rfl
      · simp only [List.map_cons, if_neg hg]
        rw [List.find?_cons_of_neg _ (by simp [hg])]
        apply ih
        rcases hmem with ⟨f, hf, hfid⟩
        rcases List.mem_cons.mp hf with rfl | hf2
        · exact absurd hfid hg
        · exact ⟨f, hf2, hfid⟩

/-- C7: private key material is written only to the client's local
storage and never appears in any payload the client puts on the wire:
`generateAndStoreKeys` stores the JWK locally and returns only the
public PEM; and the key-upload, message-send and file-send payloads are
unchanged under any change of the stored private key
(non-interference). -/
theorem private_key_never_on_wire :
    (∀ der jwk, (generateAndStoreKeys der jwk).store = some jwk ∧
      (generateAndStoreKeys der jwk).pem = exportPublicKeyAsPem der) ∧
    (∀ der jwk1 jwk2, (setupKeys der jwk1).2 = (setupKeys der jwk2).2) ∧
    (∀ (pf : Platform) (seed : List Nat) (net : String → KeyLookup) (st : ChatState)
       (content now : String) (s1 s2 : Option String),
      (handleSendMessage pf seed net { st with privateKeyStore := s1 } content now).2 =
      (handleSendMessage pf seed net { st with privateKeyStore := s2 } content now).2) ∧
    (∀ (pf : Platform) (aesKey iv seed : List Nat) (net : String → KeyLookup)
       (st : ChatState) (fileName fileType : String) (fileBytes : List Nat)
       (now : String) (s1 s2 : Option String),
      (handleFileSelect pf aesKey iv seed net { st with privateKeyStore := s1 }
        fileName fileType fileBytes now).2 =
      (handleFileSelect pf aesKey iv seed net { st with privateKeyStore := s2 }
        fileName fileType fileBytes now).2) := by
  refine ⟨fun der jwk => ⟨rfl, rfl⟩, fun der jwk1 jwk2 => rfl, ?_, ?_⟩
  · intro pf seed net st content now s1 s2
    obtain ⟨fr, ms, sel, ws, us, pks⟩ := st
    cases sel with
    | none => rfl
    | some f =>
      cases ws
      · rfl
      · cases us with
        | none => rfl
        | some u =>
          unfold handleSendMessage
          rcases hg : getFriendPublicKey net fr f.id with ⟨r, fr1, b⟩
          cases r with
          | error e => simp [hg]
          | ok pk =>
              rcases he : encryptMessage pf seed content pk with e2 | enc
              · simp [hg, he]
              · simp [hg, he]
  · intro pf aesKey iv seed net st fileName fileType fileBytes now s1 s2
    obtain ⟨fr, ms, sel, ws, us, pks⟩ := st
    cases sel with
    | none => rfl
    | some f =>
      cases ws
      · rfl
      · cases us with
        | none => rfl
        | some u =>
          unfold handleFileSelect
          rcases hg : getFriendPublicKey net fr f.id with ⟨r, fr1, b⟩
          cases r with
          | error e => simp [hg]
          | ok pk =>
              rcases he : encryptFile pf aesKey iv seed fileBytes pk with e2 | pair
              · simp [hg, he]
              · simp [hg, he]

/-- C8 counterexample: for an identity with no entry in the friends
list, a successful directory lookup is NOT cached — the state is
unchanged and the next call for the same identity hits the network
again, refuting "every later call for the same identity returns the
cached key". -/
theorem friend_key_no_entry_cex :
    getFriendPublicKey netK [] "alice" = (.ok "K", [], true) ∧
    (getFriendPublicKey netK (getFriendPublicKey netK [] "alice").2.1 "alice").2.2
      = true := by
  constructor
  · rfl
  · rfl

/-- C8 amended: `getFriendPublicKey` consults the network only when the
friend entry holds no cached key; when an entry for the identity exists
in the friends list, a successful (truthy) lookup result is stored on
that entry and every later call returns the cached key without a
network access and without changing the state.  For identities with no
friend entry the result is not cached. -/
theorem friend_key_cache_behavior (net : String → KeyLookup) (friends : List Friend)
    (friendId pk : String) :
    ((friends.find? (fun f => f.id = friendId)).bind (fun f => f.publicKey) = some pk →
      getFriendPublicKey net friends friendId = (.ok pk, friends, false)) ∧
    ((∃ f ∈ friends, f.id = friendId) →
     (friends.find? (fun f => f.id = friendId)).bind (fun f => f.publicKey) = none →
     net friendId = .okKey pk → pk ≠ "" →
     getFriendPublicKey net friends friendId =
       (.ok pk, friends.map (fun f => if f.id = friendId
          then { f with publicKey := some pk } else f), true) ∧
     getFriendPublicKey net (friends.map (fun f => if f.id = friendId
          then { f with publicKey := some pk } else f)) friendId =
       (.ok pk, friends.map (fun f => if f.id = friendId
          then { f with publicKey := some pk } else f), false)) := by
  constructor
  · intro hc
    unfold getFriendPublicKey
    rw [hc]
  · intro hmem hc hn hpk
    constructor
    · unfold getFriendPublicKey
      rw [hc]
      simp only [hn]
      rw [if_neg hpk]
    · unfold getFriendPublicKey
      rw [find?_update_publicKey friends friendId pk hmem]

/-- C8 witness: caching behaviour evaluated on a one-friend state. -/
theorem friend_key_cache_behavior_witness :
    getFriendPublicKey netK [friendBob] "bob" =
      (.ok "K", [friendBob].map (fun f => if f.id = "bob"
        then { f with publicKey := some "K" } else f), true) ∧
    getFriendPublicKey netK ([friendBob].map (fun f => if f.id = "bob"
        then { f with publicKey := some "K" } else f)) "bob" =
      (.ok "K", [friendBob].map (fun f => if f.id = "bob"
        then { f with publicKey := some "K" } else f), false) :=
  (friend_key_cache_behavior netK [friendBob] "bob" "K").2
    ⟨friendBob, by simp, rfl⟩ rfl rfl (by decide)

/-- C9: when the recipient's public key cannot be obtained (the lookup
throws), `handleSendMessage` aborts before any network write: no
envelope is emitted and the state — in particular the local messages —
is unchanged. -/
theorem send_aborts_on_key_failure (pf : Platform) (seed : List Nat)
    (net : String → KeyLookup) (st : ChatState) (content now : String) (sel : Friend)
    (hsel : st.selectedFriend = some sel)
    (hfail : (getFriendPublicKey net st.friends sel.id).1 = .error ()) :
    handleSendMessage pf seed net st content now = (st, []) := by
  obtain ⟨fr, ms, selF, ws, us, pks⟩ := st
  have hsel2 : selF = some sel := hsel
  subst hsel2
  cases ws
  · rfl
  · cases us with
    | none => rfl
    | some u =>
        have hshape := getFriendPublicKey_error_shape net fr sel.id hfail
        unfold handleSendMessage
        simp only [hshape]

/-- C9 witness: a failing directory makes the send a no-op. -/
theorem send_aborts_on_key_failure_witness :
    handleSendMessage pf0 [] netFail chatState0 "hello" "t0" = (chatState0, []) :=
  send_aborts_on_key_failure pf0 [] netFail chatState0 "hello" "t0" friendBob rfl rfl

/-- C10: the `friend:offline` handler removes no entry: positions and
all fields except `isOnline` are preserved, and `isOnline` becomes
false exactly on the entry whose id matches. -/
theorem friend_offline_frame (u : String) (l : List Friend) (d : Friend) (i : Nat)
    (h : i < l.length) :
    (friendOffline u l).length = l.length ∧
    (((friendOffline u l).getD i d).id = (l.getD i d).id ∧
     ((friendOffline u l).getD i d).name = (l.getD i d).name ∧
     ((friendOffline u l).getD i d).avatar = (l.getD i d).avatar ∧
     ((friendOffline u l).getD i d).publicKey = (l.getD i d).publicKey ∧
     ((friendOffline u l).getD i d).lastMessage = (l.getD i d).lastMessage ∧
     ((friendOffline u l).getD i d).ip = (l.getD i d).ip ∧
     ((friendOffline u l).getD i d).port = (l.getD i d).port ∧
     ((friendOffline u l).getD i d).isOnline =
       (if (l.getD i d).id = u then false else (l.getD i d).isOnline)) := by
  have hlen : (friendOffline u l).length = l.length := by simp [friendOffline]
  have hget : (friendOffline u l).getD i d =
      (if (l.getD i d).id = u then { (l.getD i d) with isOnline := false }
       else (l.getD i d)) := by
    rw [List.getD_eq_getElem _ _ (by omega : i < l.length),
      List.getD_eq_getElem _ _ (by rw [hlen]; omega : i < (friendOffline u l).length)]
    simp [friendOffline]
  refine ⟨hlen, ?_⟩
  rw [hget]
  by_cases hid : (l.getD i d).id = u
  · rw [if_pos hid, if_pos hid]
    exact ⟨rfl, rfl, rfl, rfl, rfl, rfl, rfl, rfl⟩
  · rw [if_neg hid, if_neg hid]
    exact ⟨rfl, rfl, rfl, rfl, rfl, rfl, rfl, rfl⟩

/-- C10 witness: the frame property evaluated on a one-friend list. -/
theorem friend_offline_frame_witness :
    0 < [friendBob].length ∧
    ((friendOffline "bob" [friendBob]).length = [friendBob].length ∧
     (((friendOffline "bob" [friendBob]).getD 0 friendBob).id
        = ([friendBob].getD 0 friendBob).id ∧
      ((friendOffline "bob" [friendBob]).getD 0 friendBob).name
        = ([friendBob].getD 0 friendBob).name ∧
      ((friendOffline "bob" [friendBob]).getD 0 friendBob).avatar
        = ([friendBob].getD 0 friendBob).avatar ∧
      ((friendOffline "bob" [friendBob]).getD 0 friendBob).publicKey
        = ([friendBob].getD 0 friendBob).publicKey ∧
      ((friendOffline "bob" [friendBob]).getD 0 friendBob).lastMessage
        = ([friendBob].getD 0 friendBob).lastMessage ∧
      ((friendOffline "bob" [friendBob]).getD 0 friendBob).ip
        = ([friendBob].getD 0 friendBob).ip ∧
      ((friendOffline "bob" [friendBob]).getD 0 friendBob).port
        = ([friendBob].getD 0 friendBob).port ∧
      ((friendOffline "bob" [friendBob]).getD 0 friendBob).isOnline
        = (if ([friendBob].getD 0 friendBob).id = "bob" then false
           else ([friendBob].getD 0 friendBob).isOnline))) :=
  ⟨by decide, friend_offline_frame "bob" [friendBob] friendBob 0 (by decide)⟩

end SecureComm
